import Mathlib

/-
Verification of the cloud datastore adapter (impl/cloud/datastore.go):
a shallow embedding of the key codec, property codec, error normalizer,
transaction coordinator, batch-operation sequencer, and query result
streaming, together with proofs of the specified properties.

Go machine values are embedded as follows: int64 identifiers become Int
(the codec never does arithmetic on them), strings become String, byte
strings become List Nat, float64 values are carried opaquely by the codec
and are embedded as uninterpreted bit patterns, and time.Time values are
embedded as an instant paired with a location name (UTC() replaces the
location by "UTC" and keeps the instant).
-/

set_option autoImplicit false

/-- The dollar character used as the meta-property marker in Save. -/
def dollarSign : String := "$"

/-- strings.HasPrefix at the character level (the builtin string test
does not reduce in the kernel; prefix-of on the character lists is its
computational equivalent). -/
def strHasPre (s p : String) : Bool := p.data.isPrefixOf s.data

/-- One token of an abstract hierarchical key: kind plus a string or
integer identifier. Mirrors ds.KeyTok. -/
structure KeyTok where
  kind : String
  stringID : String
  intID : Int
deriving DecidableEq

/-- Modelled from the spec: an abstract key is an ordered root-to-leaf
sequence of tokens scoped by an application id and a namespace (ds.Key;
the type lives outside the adapter source, so it is modelled from the
spec's data model). `Split` returns the three fields and `NewKeyToks`
rebuilds a key from them, which this structure makes definitional.
The field `nameSpace` renders the Go field `namespace` (a Lean keyword). -/
structure Key where
  appID : String
  nameSpace : String
  toks : List KeyTok
deriving DecidableEq

/-- Modelled from the spec: a key is incomplete when its leaf token has
neither a string nor an integer identifier. -/
def Key.incompleteKey (k : Key) : Bool :=
  match k.toks.getLast? with
  | some t => t.stringID == "" && t.intID == 0
  | none => true

/-- A backend-native key: a leaf (kind, name, id, namespace) with an
optional parent chain, as built by datastore.NewKey. -/
inductive NativeKey where
  | mk (kind : String) (name : String) (id : Int) (nameSpace : String)
      (parent : Option NativeKey)

/-- Leaf namespace of a native key (datastore.Key.Namespace). -/
def NativeKey.nameSpace : NativeKey → String
  | .mk _ _ _ ns _ => ns

/-- datastore.Key.Incomplete: the leaf has id 0 and empty name. -/
def NativeKey.incomplete : NativeKey → Bool
  | .mk _ n i _ _ => n == "" && i == 0

/-- datastore.NewKey applied to one token: the context namespace is
attached to the new leaf and the previous key becomes the parent. -/
def newNativeKey (ns : String) (tok : KeyTok) (parent : Option NativeKey) : NativeKey :=
  .mk tok.kind tok.stringID tok.intID ns parent

/-- The scope data of a boundDatastore that the codecs read: the fully
qualified application id and the context namespace. -/
structure BoundDatastore where
  appID : String
  nameSpace : String

/-- gaeKeysToNative, single-key body: split the key into tokens and fold
them root-first, each token becoming a new leaf over the previous key.
An empty token list yields Go's nil *datastore.Key, embedded as none. -/
def gaeKeyToNative (bds : BoundDatastore) (k : Key) : Option NativeKey :=
  k.toks.foldl (fun parent tok => some (newNativeKey bds.nameSpace tok parent)) none

/-- gaeKeysToNative over a list of keys. The Go slice may hold nil
pointers (for keys with no tokens); every later use of such a pointer
faults, so the list form is none as soon as one key has no tokens. -/
def gaeKeysToNative (bds : BoundDatastore) : List Key → Option (List NativeKey)
  | [] => some []
  | k :: ks =>
    match gaeKeyToNative bds k, gaeKeysToNative bds ks with
    | some nk, some nks => some (nk :: nks)
    | _, _ => none

/-- The token-collection loop of nativeKeysToGAE: walk the parent chain
from leaf to root, appending one token per level. -/
def collectToks : NativeKey → List KeyTok
  | .mk kind name id _ parent =>
    ⟨kind, name, id⟩ ::
      (match parent with
       | none => []
       | some p => collectToks p)

/-- nativeKeysToGAE, single-key body: collect tokens leaf-to-root,
reverse them to restore root-to-leaf order, and rebuild an abstract key
with the scope's application id and the native key's namespace. -/
def nativeKeyToGAE (bds : BoundDatastore) (nk : NativeKey) : Key :=
  ⟨bds.appID, nk.nameSpace, (collectToks nk).reverse⟩

/-- Token list collected from an optional native key (nil collects
nothing because the walk never starts). -/
def optCollectToks : Option NativeKey → List KeyTok
  | none => []
  | some nk => collectToks nk

/-- Go time.Time for the purposes of the codec: an instant plus a
location name. UTC() keeps the instant and replaces the location. -/
structure GoTime where
  instant : Int
  loc : String
deriving DecidableEq

/-- time.Time.UTC. -/
def GoTime.utc (t : GoTime) : GoTime :=
  ⟨t.instant, "UTC"⟩

/-- An opaque float64 bit pattern: the codec only moves floats, it never
computes with them. -/
structure GoFloat where
  bits : Nat
deriving DecidableEq

/-- An abstract property value (the payload of ds.Property). The listed
constructors cover the property types the adapter's type switch names;
PVGeoPoint stands for the abstract types the switch does not support. -/
inductive PropertyValue where
  | PVNull
  | PVInt (v : Int)
  | PVTime (t : GoTime)
  | PVBool (b : Bool)
  | PVBytes (bs : List Nat)
  | PVString (s : String)
  | PVFloat (f : GoFloat)
  | PVKey (k : Key)
  | PVGeoPoint (lat lng : GoFloat)
deriving DecidableEq

/-- ds.IndexSetting. -/
inductive IndexSetting where
  | ShouldIndex
  | NoIndex
deriving DecidableEq

/-- Modelled from the spec: ds.Property pairs a tagged value with an
index-setting flag; SetValue sets both fields (the type lives outside
the adapter source). -/
structure Property where
  value : PropertyValue
  indexSetting : IndexSetting
deriving DecidableEq

/-- Normalization used for comparison: timestamps are converted to UTC,
everything else is untouched. -/
def Property.normalizeUTC (p : Property) : Property :=
  match p.value with
  | .PVTime t => ⟨.PVTime t.utc, p.indexSetting⟩
  | _ => p

/-- A backend-native property value (the interface value stored in
datastore.Property.Value). NVNull is Go's nil interface; NVKey carries a
possibly-nil *datastore.Key; NVList is a []interface slice; NVOther
stands for any other dynamic type, carrying its printed type name. -/
inductive NativeValue where
  | NVNull
  | NVInt (v : Int)
  | NVTime (t : GoTime)
  | NVBool (b : Bool)
  | NVBytes (bs : List Nat)
  | NVString (s : String)
  | NVFloat (f : GoFloat)
  | NVKey (k : Option NativeKey)
  | NVList (vs : List NativeValue)
  | NVOther (typeName : String)

/-- datastore.Property: name, value and the NoIndex flag. -/
structure NativeProperty where
  Name : String
  Value : NativeValue
  NoIndex : Bool

/-- The printed Go type name of a native value, as the %T verb renders
it in the decode error message. -/
def nativeTypeName : NativeValue → String
  | .NVNull => "<nil>"
  | .NVInt _ => "int64"
  | .NVTime _ => "time.Time"
  | .NVBool _ => "bool"
  | .NVBytes _ => "[]uint8"
  | .NVString _ => "string"
  | .NVFloat _ => "float64"
  | .NVKey _ => "*datastore.Key"
  | .NVList _ => "[]interface \x7b\x7d"
  | .NVOther s => s

/-- One arm of gaePropertyToNative's type switch: primitive values pass
through, key values recurse into the key codec, anything else is a hard
error naming the offending index. -/
def gaePropertyValueToNative (bds : BoundDatastore) (i : Nat) (prop : Property) :
    Except String NativeValue :=
  match prop.value with
  | .PVNull => .ok .NVNull
  | .PVInt v => .ok (.NVInt v)
  | .PVTime t => .ok (.NVTime t)
  | .PVBool b => .ok (.NVBool b)
  | .PVBytes bs => .ok (.NVBytes bs)
  | .PVString s => .ok (.NVString s)
  | .PVFloat f => .ok (.NVFloat f)
  | .PVKey k => .ok (.NVKey (gaeKeyToNative bds k))
  | .PVGeoPoint _ _ => .error ("unsupported property type at " ++ toString i ++ ": PTGeoPoint")

/-- The nativeValues loop of gaePropertyToNative: convert each value in
order, aborting on the first failure. -/
def gaePropertyValuesToNative (bds : BoundDatastore) (i : Nat) :
    List Property → Except String (List NativeValue)
  | [] => .ok []
  | p :: ps =>
    match gaePropertyValueToNative bds i p with
    | .error e => .error e
    | .ok nv =>
      match gaePropertyValuesToNative bds (i + 1) ps with
      | .error e => .error e
      | .ok nvs => .ok (nv :: nvs)

/-- gaePropertyToNative: a single value becomes a scalar native property
whose NoIndex flag negates that value's index setting; any other length
becomes a list value that is never flagged NoIndex (the backend must
always index list values). -/
def gaePropertyToNative (bds : BoundDatastore) (name : String) (props : List Property) :
    Except String NativeProperty :=
  match gaePropertyValuesToNative bds 0 props with
  | .error e => .error e
  | .ok nativeValues =>
    match nativeValues, props with
    | [nv], p0 :: _ => .ok ⟨name, nv, p0.indexSetting != IndexSetting.ShouldIndex⟩
    | nvs, _ => .ok ⟨name, .NVList nvs, false⟩

/-- One arm of nativePropertyToGAE's element switch: primitives pass
through, timestamps are normalized to UTC, native keys recurse into the
key codec, and any other element type is a hard error naming the
element's concrete type. A nil native key faults in Go (nil pointer
walk); that fault is rendered as a hard error here. -/
def nativePropertyValueToGAE (bds : BoundDatastore) (i : Nat) (nv : NativeValue) :
    Except String PropertyValue :=
  match nv with
  | .NVInt v => .ok (.PVInt v)
  | .NVBool b => .ok (.PVBool b)
  | .NVString s => .ok (.PVString s)
  | .NVFloat f => .ok (.PVFloat f)
  | .NVBytes bs => .ok (.PVBytes bs)
  | .NVTime t => .ok (.PVTime t.utc)
  | .NVKey (some nk) => .ok (.PVKey (nativeKeyToGAE bds nk))
  | .NVKey none => .error "panic: nil *datastore.Key"
  | v => .error ("element " ++ toString i ++ " has unsupported datastore.Value type "
      ++ nativeTypeName v)

/-- The decode loop of nativePropertyToGAE: decode each element in
order, give every produced value the uniform index setting derived from
the native property's NoIndex flag, abort on the first failure. -/
def nativePropertyValuesToGAE (bds : BoundDatastore) (noIndex : Bool) (i : Nat) :
    List NativeValue → Except String (List Property)
  | [] => .ok []
  | nv :: nvs =>
    match nativePropertyValueToGAE bds i nv with
    | .error e => .error e
    | .ok v =>
      match nativePropertyValuesToGAE bds noIndex (i + 1) nvs with
      | .error e => .error e
      | .ok ps => .ok (⟨v, if noIndex then .NoIndex else .ShouldIndex⟩ :: ps)

/-- nativePropertyToGAE: a generic list value is decoded element by
element, any scalar is wrapped as a single-element list; an empty list
decodes to no values at all. -/
def nativePropertyToGAE (bds : BoundDatastore) (np : NativeProperty) :
    Except String (String × List Property) :=
  let nativeValues : List NativeValue :=
    match np.Value with
    | .NVList vs => vs
    | v => [v]
  match nativeValues with
  | [] => .ok (np.Name, [])
  | nvs =>
    match nativePropertyValuesToGAE bds np.NoIndex 0 nvs with
    | .error e => .error e
    | .ok props => .ok (np.Name, props)

/-- The supported-and-decodable value predicate used by the amended
roundtrip statement: the fixed primitive types other than null, plus
key values whose key has at least one token and carries the scope's
application id and namespace. -/
def supportedNonNull (bds : BoundDatastore) : PropertyValue → Bool
  | .PVInt _ => true
  | .PVTime _ => true
  | .PVBool _ => true
  | .PVBytes _ => true
  | .PVString _ => true
  | .PVFloat _ => true
  | .PVKey k => !k.toks.isEmpty && (k.appID == bds.appID) && (k.nameSpace == bds.nameSpace)
  | _ => false

/-- Go error values the adapter observes or produces: the three backend
sentinels, the three abstract ds sentinels, the ds.Stop sentinel, the
iterator's Done sentinel, plain message errors (errors.New and
fmt.Errorf), and aggregate errors keyed by index (errors.MultiError,
whose slots may be nil). -/
inductive GoError where
  | nativeNoSuchEntity
  | nativeConcurrentTransaction
  | nativeInvalidKey
  | dsNoSuchEntity
  | dsConcurrentTransaction
  | dsInvalidKey
  | dsStop
  | done
  | errString (s : String)
  | multi (es : List (Option GoError))

/-- normalizeError: map the backend sentinels to the abstract sentinels,
pass every other error through unchanged. -/
def normalizeError : GoError → GoError
  | .nativeNoSuchEntity => .dsNoSuchEntity
  | .nativeConcurrentTransaction => .dsConcurrentTransaction
  | .nativeInvalidKey => .dsInvalidKey
  | e => e

/-- errors.Fix from the luci-go errors package (an external dependency):
it retypes MultiError-compatible values, which on this already-typed
error embedding is the identity. -/
def errorsFix (e : GoError) : GoError := e

/-- ds.TransactionOptions: the cross-group flag and the attempt count. -/
structure TransactionOptions where
  XG : Bool
  Attempts : Int

/-- The attempt bound of RunInTransaction: 3 unless the options carry a
positive Attempts value. -/
def runInTransactionAttempts (opts : Option TransactionOptions) : Nat :=
  match opts with
  | some o => if 0 < o.Attempts then o.Attempts.toNat else 3
  | none => 3

/-- The retry loop of RunInTransaction. `res i` is the error the backend
transaction call reports on attempt i (none on success); the loop
normalizes it and returns it unless it is the concurrent-transaction
sentinel, in which case it retries until the bound is exhausted and then
reports the sentinel. The second component counts the backend
transaction calls actually made. -/
def txLoop (res : Nat → Option GoError) : Nat → Nat → Option GoError × Nat
  | i, 0 => (some .dsConcurrentTransaction, i)
  | i, rem + 1 =>
    match (res i).map normalizeError with
    | some .dsConcurrentTransaction => txLoop res (i + 1) rem
    | e => (e, i + 1)

/-- RunInTransaction: reject nesting, then reject the unsupported
cross-group option, then run the bounded retry loop. `txBound` says
whether the scope already has a transaction bound. -/
def runInTransaction (txBound : Bool) (opts : Option TransactionOptions)
    (res : Nat → Option GoError) : Option GoError × Nat :=
  if txBound then
    (some (.errString "nested transactions are not supported"), 0)
  else
    match opts with
    | some o =>
      if o.XG then
        (some (.errString "cross-group transactions are not supported"), 0)
      else
        txLoop res 0 (runInTransactionAttempts opts)
    | none => txLoop res 0 (runInTransactionAttempts none)

/-- The success loop of idxCallbacker: invoke the callback once per
index with a nil error, stopping early if the callback itself returns an
error. The callback yields a record of what it was passed (made explicit
so invocations are observable) plus its Go return value; the result
pairs the record trace with idxCallbacker's return value. -/
def idxCbLoopOk {τ : Type} (cb : Nat → Option GoError → τ × Option GoError) :
    Nat → Nat → List τ × Option GoError
  | _, 0 => ([], none)
  | i, n + 1 =>
    match cb i none with
    | (r, some e) => ([r], some e)
    | (r, none) =>
      let rest := idxCbLoopOk cb (i + 1) n
      (r :: rest.1, rest.2)

/-- The MultiError loop of idxCallbacker: invoke the callback once per
aggregate slot with that slot's individually normalized error, stopping
early if the callback itself returns an error. -/
def idxCbLoopMulti {τ : Type} (cb : Nat → Option GoError → τ × Option GoError) :
    Nat → List (Option GoError) → List τ × Option GoError
  | _, [] => ([], none)
  | i, e :: es =>
    match cb i (e.map normalizeError) with
    | (r, some x) => ([r], some x)
    | (r, none) =>
      let rest := idxCbLoopMulti cb (i + 1) es
      (r :: rest.1, rest.2)

/-- idxCallbacker: on success invoke the callback once per index with a
nil error; on an aggregate error invoke it once per slot with that
slot's normalized error; on any other error return the normalized error
without invoking the callback at all. -/
def idxCallbacker {τ : Type} (err : Option GoError) (amt : Nat)
    (cb : Nat → Option GoError → τ × Option GoError) : List τ × Option GoError :=
  match err with
  | none => idxCbLoopOk cb 0 amt
  | some e =>
    match errorsFix e with
    | .multi es => idxCbLoopMulti cb 0 es
    | e' => ([], some (normalizeError e'))

/-- The incomplete-key scan of transactional PutMulti: walk the native
keys with their indices and keep (index, key) for each incomplete key,
in input order. The pairs carry both halves of the Go bookkeeping:
incompleteKeys is the second projection and incompleteKeyMap sends a
position in that list to the first projection. -/
def incompletePairsFrom (i : Nat) : List NativeKey → List (Nat × NativeKey)
  | [] => []
  | k :: ks =>
    if k.incomplete then (i, k) :: incompletePairsFrom (i + 1) ks
    else incompletePairsFrom (i + 1) ks

/-- Lookup in the incompleteKeyMap: position j of the allocation result
maps to the original index stored at position j of the scan; a missing
position yields the Go map's zero value 0. -/
def posAt : List Nat → Nat → Nat
  | [], _ => 0
  | p :: _, 0 => p
  | _ :: ps, j + 1 => posAt ps j

/-- The substitution loop of transactional PutMulti: for each allocated
key in order, overwrite the native key slice at the original index the
map records for that allocation position. -/
def allocLoop (positions : List Nat) : Nat → List NativeKey → List NativeKey → List NativeKey
  | _, acc, [] => acc
  | j, acc, idKey :: rest => allocLoop positions (j + 1) (acc.set (posAt positions j) idKey) rest

/-- The substitution described by the spec: walk the keys in order and
replace each incomplete key with the next allocated key. Used as the
readable characterization of the allocLoop computation. -/
def substIncomplete : List NativeKey → List NativeKey → List NativeKey
  | [], _ => []
  | k :: ks, ids =>
    if k.incomplete then
      match ids with
      | [] => k :: substIncomplete ks []
      | nid :: ids' => nid :: substIncomplete ks ids'
    else k :: substIncomplete ks ids

/-- Everything observable about one transactional PutMulti call: the
argument of the identifier-allocation call if one was made, the native
key list passed to the backend transactional write, the per-item
callback invocations (index, key argument, error argument) in order, and
the value PutMulti returns. -/
structure PutMultiTxTrace where
  allocArg : Option (List NativeKey)
  finalKeys : List NativeKey
  callbacks : List (Nat × Option Key × Option GoError)
  result : Option GoError

/-- Go's zero native key, standing for the out-of-range slice access
that a mismatched allocation answer would cause (never reached when the
backend honors the allocation contract). -/
def nkOutOfRange : NativeKey := .mk "" "" 0 "" none

/-- The per-index closure PutMulti hands to idxCallbacker: on a nil
error convert the (possibly substituted) native key at that index back
to an abstract key and pass it to the user callback with a nil error,
otherwise pass a nil key and the error. cbRet is the user callback's
return value. -/
def putCb (bds : BoundDatastore) (cbRet : Nat → Option Key → Option GoError → Option GoError)
    (final : List NativeKey) (idx : Nat) (err : Option GoError) :
    (Nat × Option Key × Option GoError) × Option GoError :=
  match err with
  | none =>
    let k := nativeKeyToGAE bds ((final.get? idx).getD nkOutOfRange)
    ((idx, some k, none), cbRet idx (some k) none)
  | some e => ((idx, none, some e), cbRet idx none (some e))

/-- Transactional PutMulti over already-encoded native keys: scan for
incomplete keys, allocate identifiers for exactly that subset (aborting
with the backend's error if allocation fails), substitute each allocated
key at its original index, hand the substituted list to the backend
transactional write (whose reported error is txPutErr), and dispatch the
outcome through idxCallbacker. -/
def putMultiTxNative (bds : BoundDatastore)
    (alloc : List NativeKey → Except GoError (List NativeKey))
    (txPutErr : Option GoError)
    (cbRet : Nat → Option Key → Option GoError → Option GoError)
    (nativeKeys : List NativeKey) : PutMultiTxTrace :=
  let incPairs := incompletePairsFrom 0 nativeKeys
  let incompleteKeys := incPairs.map (fun p => p.2)
  if incompleteKeys.isEmpty then
    let out := idxCallbacker txPutErr nativeKeys.length (putCb bds cbRet nativeKeys)
    ⟨none, nativeKeys, out.1, out.2⟩
  else
    match alloc incompleteKeys with
    | .error e => ⟨some incompleteKeys, nativeKeys, [], some e⟩
    | .ok idKeys =>
      let final := allocLoop (incPairs.map (fun p => p.1)) 0 nativeKeys idKeys
      let out := idxCallbacker txPutErr final.length (putCb bds cbRet final)
      ⟨some incompleteKeys, final, out.1, out.2⟩

/-- Transactional PutMulti from abstract keys: encode the keys (a key
with no tokens encodes to a nil native pointer on which Go faults, so
that case is none) and run the native transactional put. -/
def putMultiTx (bds : BoundDatastore)
    (alloc : List NativeKey → Except GoError (List NativeKey))
    (txPutErr : Option GoError)
    (cbRet : Nat → Option Key → Option GoError → Option GoError)
    (keys : List Key) : Option PutMultiTxTrace :=
  match gaeKeysToNative bds keys with
  | none => none
  | some nks => some (putMultiTxNative bds alloc txPutErr cbRet nks)

/-- A PropertyMap: property name to the ordered list of values sharing
that name. Go iterates its map in unspecified order; the embedding fixes
the order as the list order. -/
abbrev PMap : Type := List (String × List Property)

/-- The append of Load: extend the value list already stored under the
name, or add a new entry at the end. -/
def pmapAppend (pm : PMap) (name : String) (vals : List Property) : PMap :=
  if (List.any pm (fun e => e.1 == name)) then
    List.map (fun e => if e.1 == name then (e.1, e.2 ++ vals) else e) pm
  else
    List.append pm [(name, vals)]

/-- nativePropertyLoadSaver.Load over an allocated (empty) map: decode
each native property and append its values under its name, aborting on
the first decode failure. -/
def loadPMapFrom (bds : BoundDatastore) (pm : PMap) :
    List NativeProperty → Except String PMap
  | [] => .ok pm
  | np :: nps =>
    match nativePropertyToGAE bds np with
    | .error e => .error e
    | .ok nameProps => loadPMapFrom bds (pmapAppend pm nameProps.1 nameProps.2) nps

/-- Load starting from the fresh property loader mkNPLS(nil) builds. -/
def loadPMap (bds : BoundDatastore) (nps : List NativeProperty) : Except String PMap :=
  loadPMapFrom bds [] nps

/-- One step of the backend query iterator as Run observes it: an entity
(its native key and native properties), or a mid-stream error; the end
of the list is the Done sentinel. -/
inductive IterItem where
  | entity (k : NativeKey) (props : List NativeProperty)
  | iterErr (e : GoError)

/-- The loop of Run. For each yielded entity a property loader is
allocated only when the query is not keys-only; the callback is then
invoked with the decoded key and the loader's map. For a keys-only query
the loader pointer is nil and reading its map field faults, which the
none outcome records. cbRet is the user callback's return value at each
invocation; ds.Stop ends iteration cleanly, any other error is
normalized and returned, and Done (the end of the items) returns nil.
The some outcome carries the callback invocations in order and Run's
return value. -/
def runLoop (bds : BoundDatastore) (keysOnly : Bool) (cbRet : Nat → Option GoError)
    (idx : Nat) : List IterItem → Option (List (Key × Option PMap) × Option GoError)
  | [] => some ([], none)
  | .iterErr e :: _ => some ([], some (normalizeError e))
  | .entity nk props :: rest =>
    if keysOnly then
      none
    else
      match loadPMap bds props with
      | .error m => some ([], some (normalizeError (.errString m)))
      | .ok pm =>
        let gk := nativeKeyToGAE bds nk
        match cbRet idx with
        | some GoError.dsStop => some ([(gk, some pm)], none)
        | some e => some ([(gk, some pm)], some (normalizeError e))
        | none =>
          match runLoop bds keysOnly cbRet (idx + 1) rest with
          | none => none
          | some tr => some ((gk, some pm) :: tr.1, tr.2)

/-- Run: iterate the backend results from the first invocation. -/
def run (bds : BoundDatastore) (keysOnly : Bool) (cbRet : Nat → Option GoError)
    (items : List IterItem) : Option (List (Key × Option PMap) × Option GoError) :=
  runLoop bds keysOnly cbRet 0 items

/-- The loop of nativePropertyLoadSaver.Save: skip every entry whose
name starts with the meta marker, encode every other entry, abort on the
first encode failure, keeping iteration order. -/
def saveLoop (bds : BoundDatastore) : PMap → Except String (List NativeProperty)
  | [] => .ok []
  | e :: rest =>
    if strHasPre e.1 dollarSign then saveLoop bds rest
    else
      match gaePropertyToNative bds e.1 e.2 with
      | .error msg => .error msg
      | .ok np =>
        match saveLoop bds rest with
        | .error msg => .error msg
        | .ok nps => .ok (np :: nps)

/-- nativePropertyLoadSaver.Save: an empty (or nil) map saves to no
native properties at all; otherwise run the encode loop. -/
def save (bds : BoundDatastore) (pmap : PMap) : Except String (List NativeProperty) :=
  if pmap.length = 0 then .ok [] else saveLoop bds pmap

/-- A concrete scope for the closed instances below. -/
def bds0 : BoundDatastore := ⟨"dev~app", "ns"⟩

/-- A concrete complete two-token key in the scope of bds0. -/
def keyW : Key := ⟨"dev~app", "ns", [⟨"Parent", "p", 0⟩, ⟨"Child", "", 7⟩]⟩

/-- A concrete complete native key in the namespace of bds0. -/
def nkW : NativeKey := .mk "Kind" "ent" 0 "ns" none

/-- A user callback that always returns nil. -/
def cbNone : Nat → Option GoError → Option GoError := fun _ _ => none

/-- A concrete incomplete single-token key in the scope of bds0. -/
def keyIncW : Key := ⟨"dev~app", "ns", [⟨"Kind", "", 0⟩]⟩

/-- A concrete backend allocator answering one complete key. -/
def allocW : List NativeKey → Except GoError (List NativeKey) :=
  fun _ => .ok [NativeKey.mk "Kind" "" 9 "ns" none]

/-
Theorems. Lemmas shared between claims come first.
-/

/-- Folding tokens through datastore.NewKey builds a native key whose
leaf-to-root walk collects exactly the reversed tokens (continuing into
whatever the initial parent collects), in the fold's namespace. -/
theorem encodeFold_spec (ns : String) :
    ∀ (toks : List KeyTok) (p : Option NativeKey), toks ≠ [] →
      ∃ nk, List.foldl (fun parent tok => some (newNativeKey ns tok parent)) p toks = some nk ∧
        collectToks nk = toks.reverse ++ optCollectToks p ∧ nk.nameSpace = ns := by
  intro toks
  induction toks with
  | nil => intro p h; exact absurd rfl h
  | cons t ts ih =>
    intro p _
    cases ts with
    | nil =>
      refine ⟨newNativeKey ns t p, rfl, ?_, rfl⟩
      cases t
      cases p <;> simp [collectToks, newNativeKey, optCollectToks]
    | cons t' ts' =>
      obtain ⟨nk, hfold, hcoll, hns⟩ :=
        ih (some (newNativeKey ns t p)) (by simp)
      refine ⟨nk, hfold, ?_, hns⟩
      rw [hcoll]
      cases t
      cases p <;> simp [collectToks, newNativeKey, optCollectToks]

/-- Encode-then-decode is the identity on every abstract key with at
least one token whose application id and namespace are the scope's;
the decoded key carries the native key's namespace. Shared core of the
key-codec claims. -/
theorem gaeKeyToNative_roundtrip (bds : BoundDatastore) (k : Key)
    (hne : k.toks ≠ [])
    (happ : k.appID = bds.appID) (hns : k.nameSpace = bds.nameSpace) :
    ∃ nk, gaeKeyToNative bds k = some nk ∧ nativeKeyToGAE bds nk = k ∧
      nk.nameSpace = bds.nameSpace := by
  obtain ⟨nk, hfold, hcoll, hnsnk⟩ := encodeFold_spec bds.nameSpace k.toks none hne
  refine ⟨nk, hfold, ?_, hnsnk⟩
  unfold nativeKeyToGAE
  rw [hcoll, hnsnk]
  cases k with
  | mk a n t =>
    simp only [optCollectToks, List.append_nil, List.reverse_reverse]
    simp [happ, hns] at happ hns ⊢
    exact ⟨happ.symm, hns.symm⟩

/-- C1: for every complete abstract key k (every token has a kind and a
string or integer identifier) in the adapter's scope (non-empty token
path, the scope's application id and namespace), encoding k to a
backend-native key succeeds and decoding the result yields k itself —
tokens in the original root-to-leaf order, the scope's application id,
and the native key's namespace. -/
theorem key_codec_roundtrip (bds : BoundDatastore) (k : Key)
    (hne : k.toks ≠ [])
    (hcomplete : ∀ t ∈ k.toks, t.kind ≠ "" ∧ (t.stringID ≠ "" ∨ t.intID ≠ 0))
    (happ : k.appID = bds.appID) (hns : k.nameSpace = bds.nameSpace) :
    ∃ nk, gaeKeyToNative bds k = some nk ∧ nativeKeyToGAE bds nk = k ∧
      nk.nameSpace = bds.nameSpace :=
  gaeKeyToNative_roundtrip bds k hne happ hns

/-- Witness for key_codec_roundtrip at a concrete two-token key. -/
theorem key_codec_roundtrip_witness :
    ∃ nk, gaeKeyToNative bds0 keyW = some nk ∧ nativeKeyToGAE bds0 nk = keyW ∧
      nk.nameSpace = bds0.nameSpace :=
  key_codec_roundtrip bds0 keyW (by simp [keyW]) (by decide) rfl rfl

/-- UTC normalization keeps the index setting and only rewrites the
value, so rebuilding a property from its normalized value and original
setting gives the normalized property. -/
theorem normalizeUTC_eta (q : Property) :
    (⟨(Property.normalizeUTC q).value, q.indexSetting⟩ : Property) = Property.normalizeUTC q := by
  cases q with
  | mk v is => cases v <;> rfl

/-- Element-level roundtrip: a supported non-null value encodes to a
scalar (never a list) native value that decodes back to the value with
its timestamps normalized to UTC, whatever positions the two loops are
at. -/
theorem propertyValue_roundtrip (bds : BoundDatastore) (q : Property)
    (h : supportedNonNull bds q.value = true) (i j : Nat) :
    ∃ nv, gaePropertyValueToNative bds i q = .ok nv ∧
      (∀ vs, nv ≠ NativeValue.NVList vs) ∧
      nativePropertyValueToGAE bds j nv = .ok (Property.normalizeUTC q).value := by
  cases q with
  | mk v is =>
    cases v with
    | PVNull => simp [supportedNonNull] at h
    | PVInt n => exact ⟨_, rfl, by simp, rfl⟩
    | PVTime t => exact ⟨_, rfl, by simp, rfl⟩
    | PVBool b => exact ⟨_, rfl, by simp, rfl⟩
    | PVBytes bs => exact ⟨_, rfl, by simp, rfl⟩
    | PVString s => exact ⟨_, rfl, by simp, rfl⟩
    | PVFloat f => exact ⟨_, rfl, by simp, rfl⟩
    | PVGeoPoint la ln => simp [supportedNonNull] at h
    | PVKey k =>
      simp only [supportedNonNull, Bool.and_eq_true, Bool.not_eq_true',
        List.isEmpty_eq_false, beq_iff_eq] at h
      obtain ⟨⟨hne, happ⟩, hns⟩ := h
      obtain ⟨nk, henc, hdec, _⟩ := gaeKeyToNative_roundtrip bds k hne happ hns
      refine ⟨.NVKey (gaeKeyToNative bds k), rfl, by simp, ?_⟩
      rw [henc]
      simp [nativePropertyValueToGAE, hdec, Property.normalizeUTC]

/-- List-level roundtrip at no-index false: encoding a list of supported
non-null values succeeds, preserves length, and the decode loop with the
should-index setting returns the values normalized to UTC and uniformly
marked should-index. -/
theorem propertyValues_roundtrip (bds : BoundDatastore) :
    ∀ (p : List Property) (i : Nat), (∀ q ∈ p, supportedNonNull bds q.value = true) →
      ∃ nvs, gaePropertyValuesToNative bds i p = .ok nvs ∧
        nvs.length = p.length ∧
        ∀ j, nativePropertyValuesToGAE bds false j nvs =
          .ok (p.map (fun q => ⟨(Property.normalizeUTC q).value, IndexSetting.ShouldIndex⟩)) := by
  intro p
  induction p with
  | nil => exact fun i _ => ⟨[], rfl, rfl, fun j => rfl⟩
  | cons q rest ih =>
    intro i hsupp
    obtain ⟨nv, henc, _, hdec⟩ :=
      propertyValue_roundtrip bds q (hsupp q (by simp)) i 0
    obtain ⟨nvs, hencs, hlen, hdecs⟩ :=
      ih (i + 1) (fun r hr => hsupp r (by simp [hr]))
    refine ⟨nv :: nvs, ?_, by simp [hlen], ?_⟩
    · simp [gaePropertyValuesToNative, henc, hencs]
    · intro j
      have hdj := propertyValue_roundtrip bds q (hsupp q (by simp)) i j
      obtain ⟨nv', henc', _, hdec'⟩ := hdj
      rw [henc] at henc'
      cases henc'
      simp [nativePropertyValuesToGAE, hdec', hdecs (j + 1)]

/-- Decoding a scalar native property inspects only its single value:
the wrap-as-singleton branch is taken whenever the value is not a
generic list. -/
theorem nativePropertyToGAE_scalar (bds : BoundDatastore) (name : String) (nv : NativeValue)
    (noIdx : Bool) (hnl : ∀ vs, nv ≠ NativeValue.NVList vs) :
    nativePropertyToGAE bds ⟨name, nv, noIdx⟩ =
      match nativePropertyValuesToGAE bds noIdx 0 [nv] with
      | .error e => .error e
      | .ok props => .ok (name, props) := by
  cases nv <;> first | rfl | exact absurd rfl (hnl _)

/-- The uniform index setting the decode loop attaches when the NoIndex
flag was derived from a single value's setting restores that setting. -/
theorem scalar_flag_roundtrip (is : IndexSetting) :
    (if (is != IndexSetting.ShouldIndex) = true then IndexSetting.NoIndex
     else IndexSetting.ShouldIndex) = is := by
  cases is <;> rfl

/-- Rebuilding a scalar decode result from the normalized value and the
flag derived from the value's own setting gives the normalized value. -/
theorem scalar_rebuild (q : Property) :
    (⟨(Property.normalizeUTC q).value,
       if q.indexSetting = IndexSetting.ShouldIndex then IndexSetting.ShouldIndex
       else IndexSetting.NoIndex⟩ : Property) = Property.normalizeUTC q := by
  cases q with
  | mk v is => cases is <;> cases v <;> rfl

/-- C2 (amended): for every non-empty property value list p whose values
are all of supported non-null types (integer, timestamp, boolean, bytes,
string, float, key — with key values having a non-empty token path and
the scope's application id and namespace), and which is either a single
value or has every value marked should-index, encoding p to a native
property succeeds and decoding the result yields p again with its
timestamps normalized to UTC. (As literally stated over all supported
types the claim fails: a null value encodes but does not decode, and a
multi-valued no-index list decodes as should-index.) -/
theorem property_codec_roundtrip (bds : BoundDatastore) (name : String) (p : List Property)
    (hne : p ≠ [])
    (hsupp : ∀ q ∈ p, supportedNonNull bds q.value = true)
    (hidx : p.length = 1 ∨ ∀ q ∈ p, q.indexSetting = IndexSetting.ShouldIndex) :
    ∃ np, gaePropertyToNative bds name p = .ok np ∧
      nativePropertyToGAE bds np = .ok (name, p.map Property.normalizeUTC) := by
  cases p with
  | nil => exact absurd rfl hne
  | cons q rest =>
    cases rest with
    | nil =>
      obtain ⟨nv, henc, hnl, hdec⟩ :=
        propertyValue_roundtrip bds q (hsupp q (by simp)) 0 0
      refine ⟨⟨name, nv, q.indexSetting != IndexSetting.ShouldIndex⟩, ?_, ?_⟩
      · simp [gaePropertyToNative, gaePropertyValuesToNative, henc]
      · rw [nativePropertyToGAE_scalar bds name nv _ hnl]
        simp [nativePropertyValuesToGAE, hdec, scalar_flag_roundtrip, normalizeUTC_eta,
          scalar_rebuild]
    | cons q' rest' =>
      have hall : ∀ r ∈ q :: q' :: rest', r.indexSetting = IndexSetting.ShouldIndex := by
        rcases hidx with h1 | h2
        · simp at h1
        · exact h2
      obtain ⟨nvs, hencs, hlen, hdecs⟩ :=
        propertyValues_roundtrip bds (q :: q' :: rest') 0 hsupp
      cases nvs with
      | nil => simp at hlen
      | cons a nvs' =>
        cases nvs' with
        | nil => simp at hlen
        | cons b t =>
          refine ⟨⟨name, .NVList (a :: b :: t), false⟩, ?_, ?_⟩
          · simp [gaePropertyToNative, hencs]
          · have hmap : (q :: q' :: rest').map
                (fun r => (⟨(Property.normalizeUTC r).value, IndexSetting.ShouldIndex⟩ : Property)) =
                (q :: q' :: rest').map Property.normalizeUTC := by
              apply List.map_congr_left
              intro r hr
              rw [← hall r hr]
              exact normalizeUTC_eta r
            have hdec0 := hdecs 0
            rw [hmap] at hdec0
            simp [nativePropertyToGAE, hdec0]

/-- C2 counterexample: a single null value is a supported type, its
encoding succeeds (a nil native value), but decoding the encoded
property is a hard error rather than the original list — the roundtrip
claimed over all supported types including null fails. -/
theorem property_codec_null_not_roundtrip :
    gaePropertyToNative bds0 "x" [⟨.PVNull, .ShouldIndex⟩] = .ok ⟨"x", .NVNull, false⟩ ∧
    nativePropertyToGAE bds0 ⟨"x", .NVNull, false⟩ =
      .error "element 0 has unsupported datastore.Value type <nil>" :=
  ⟨rfl, rfl⟩

/-- Witness for property_codec_roundtrip at a single local-time
timestamp value marked no-index. -/
theorem property_codec_roundtrip_witness :
    ∃ np, gaePropertyToNative bds0 "x" [⟨.PVTime ⟨5, "Local"⟩, .NoIndex⟩] = .ok np ∧
      nativePropertyToGAE bds0 np =
        .ok ("x", [⟨.PVTime ⟨5, "Local"⟩, .NoIndex⟩].map Property.normalizeUTC) :=
  property_codec_roundtrip bds0 "x" [⟨.PVTime ⟨5, "Local"⟩, .NoIndex⟩]
    (by simp) (by decide) (Or.inl rfl)

/-- The encode loop preserves the number of values. -/
theorem gaePropertyValuesToNative_length (bds : BoundDatastore) :
    ∀ (p : List Property) (i : Nat) (nvs : List NativeValue),
      gaePropertyValuesToNative bds i p = .ok nvs → nvs.length = p.length := by
  intro p
  induction p with
  | nil =>
    intro i nvs h
    simp [gaePropertyValuesToNative] at h
    simp [← h]
  | cons q rest ih =>
    intro i nvs h
    unfold gaePropertyValuesToNative at h
    cases h1 : gaePropertyValueToNative bds i q with
    | error e => rw [h1] at h; exact absurd h (by simp)
    | ok nv =>
      rw [h1] at h
      cases h2 : gaePropertyValuesToNative bds (i + 1) rest with
      | error e => rw [h2] at h; exact absurd h (by simp)
      | ok nvs' =>
        rw [h2] at h
        simp at h
        simp [← h, ih (i + 1) nvs' h2]

/-- The decode loop at NoIndex false marks every produced value
should-index. -/
theorem nativePropertyValuesToGAE_flags (bds : BoundDatastore) :
    ∀ (nvs : List NativeValue) (i : Nat) (props : List Property),
      nativePropertyValuesToGAE bds false i nvs = .ok props →
      ∀ q ∈ props, q.indexSetting = IndexSetting.ShouldIndex := by
  intro nvs
  induction nvs with
  | nil =>
    intro i props h
    simp [nativePropertyValuesToGAE] at h
    subst h
    intro q hq
    simp at hq
  | cons nv rest ih =>
    intro i props h
    unfold nativePropertyValuesToGAE at h
    cases h1 : nativePropertyValueToGAE bds i nv with
    | error e => rw [h1] at h; exact absurd h (by simp)
    | ok v =>
      rw [h1] at h
      cases h2 : nativePropertyValuesToGAE bds false (i + 1) rest with
      | error e => rw [h2] at h; exact absurd h (by simp)
      | ok ps =>
        rw [h2] at h
        simp at h
        intro q hq
        rw [← h] at hq
        rcases List.mem_cons.mp hq with h3 | h3
        · rw [h3]
        · exact ih (i + 1) ps h2 q h3

/-- C3: a property value list with more than one element encodes to a
native property that is never flagged no-index, whatever the per-value
index settings were; consequently whenever its encoded form decodes, all
decoded values are marked should-index. -/
theorem multi_valued_always_indexed (bds : BoundDatastore) (name : String)
    (props : List Property) (np : NativeProperty)
    (hlen : 1 < props.length)
    (henc : gaePropertyToNative bds name props = .ok np) :
    np.NoIndex = false ∧
    ∀ name' props', nativePropertyToGAE bds np = .ok (name', props') →
      ∀ q ∈ props', q.indexSetting = IndexSetting.ShouldIndex := by
  unfold gaePropertyToNative at henc
  cases h1 : gaePropertyValuesToNative bds 0 props with
  | error e => rw [h1] at henc; exact absurd henc (by simp)
  | ok nvs =>
    rw [h1] at henc
    have hlen' : nvs.length = props.length := gaePropertyValuesToNative_length bds props 0 nvs h1
    cases nvs with
    | nil => rw [← hlen'] at hlen; simp at hlen
    | cons a t =>
      cases t with
      | nil =>
        exfalso
        rw [← hlen'] at hlen
        simp at hlen
      | cons b t' =>
        cases props with
        | nil => simp at hlen
        | cons p0 prest =>
          simp at henc
          cases henc
          refine ⟨rfl, ?_⟩
          intro name' props' hdec
          unfold nativePropertyToGAE at hdec
          simp at hdec
          cases h2 : nativePropertyValuesToGAE bds false 0 (a :: b :: t') with
          | error e => rw [h2] at hdec; exact absurd hdec (by simp)
          | ok ps =>
            rw [h2] at hdec
            simp at hdec
            intro q hq
            rw [← hdec.2] at hq
            exact nativePropertyValuesToGAE_flags bds (a :: b :: t') 0 ps h2 q hq

/-- One retry-loop step on a conflict attempt just moves to the next
attempt. -/
theorem txLoop_step_conflict (res : Nat → Option GoError) (i n : Nat)
    (hv : (res i).map normalizeError = some GoError.dsConcurrentTransaction) :
    txLoop res i (n + 1) = txLoop res (i + 1) n := by
  conv_lhs => rw [txLoop]
  rw [hv]

/-- One retry-loop step on a non-conflict attempt returns that attempt's
normalized result at once. -/
theorem txLoop_step_non_conflict (res : Nat → Option GoError) (i n : Nat)
    (h : (res i).map normalizeError ≠ some GoError.dsConcurrentTransaction) :
    txLoop res i (n + 1) = ((res i).map normalizeError, i + 1) := by
  unfold txLoop
  cases hv : (res i).map normalizeError with
  | none => rfl
  | some g => cases g <;> first | exact absurd hv h | rfl

/-- Exhausting the retry bound on all-conflict attempts reports the
conflict sentinel after exactly the bound many attempts. -/
theorem txLoop_all_conflict (res : Nat → Option GoError) :
    ∀ (rem i : Nat),
      (∀ d, d < rem → (res (i + d)).map normalizeError = some GoError.dsConcurrentTransaction) →
      txLoop res i rem = (some GoError.dsConcurrentTransaction, i + rem) := by
  intro rem
  induction rem with
  | zero => intro i _; simp [txLoop]
  | succ n ih =>
    intro i h
    have h0 : (res i).map normalizeError = some GoError.dsConcurrentTransaction := by
      simpa using h 0 (Nat.succ_pos n)
    rw [txLoop_step_conflict res i n h0,
      ih (i + 1) (fun d hd => by simpa [Nat.add_assoc] using h (1 + d) (by omega))]
    simp
    omega

/-- The retry loop returns the first non-conflict attempt's normalized
result right after that attempt. -/
theorem txLoop_first_non_conflict (res : Nat → Option GoError) :
    ∀ (rem i j : Nat), j < rem →
      (∀ d, d < j → (res (i + d)).map normalizeError = some GoError.dsConcurrentTransaction) →
      (res (i + j)).map normalizeError ≠ some GoError.dsConcurrentTransaction →
      txLoop res i rem = ((res (i + j)).map normalizeError, i + j + 1) := by
  intro rem
  induction rem with
  | zero => intro i j hj; exact absurd hj (Nat.not_lt_zero j)
  | succ n ih =>
    intro i j hj hconf hnon
    cases j with
    | zero =>
      rw [txLoop_step_non_conflict res i n (by simpa using hnon)]
      simp
    | succ j' =>
      have h0 : (res i).map normalizeError = some GoError.dsConcurrentTransaction := by
        simpa using hconf 0 (Nat.succ_pos j')
      rw [txLoop_step_conflict res i n h0]
      have hne : i + 1 + j' = i + (j' + 1) := by omega
      have hstep := ih (i + 1) j' (by omega)
        (fun d hd => by
          rw [show i + 1 + d = i + (d + 1) from by omega]
          exact hconf (d + 1) (by omega))
        (by rw [hne]; exact hnon)
      rw [hstep, hne]

/-- C4: with no transaction bound and no cross-group flag, the attempt
bound n is at least 1 (3 by default when no positive option is given);
if every attempt normalizes to the concurrency-conflict sentinel,
RunInTransaction makes exactly n backend attempts and returns the
conflict sentinel; and the first attempt with a non-conflict result
(success included) ends RunInTransaction immediately with that result
and no further attempts. -/
theorem runInTransaction_retry (opts : Option TransactionOptions) (res : Nat → Option GoError)
    (n : Nat)
    (hxg : ∀ o, opts = some o → o.XG = false)
    (hn : runInTransactionAttempts opts = n) :
    1 ≤ n ∧
    runInTransactionAttempts none = 3 ∧
    ((∀ i, i < n → (res i).map normalizeError = some GoError.dsConcurrentTransaction) →
      runInTransaction false opts res = (some GoError.dsConcurrentTransaction, n)) ∧
    (∀ j, j < n →
      (∀ i, i < j → (res i).map normalizeError = some GoError.dsConcurrentTransaction) →
      (res j).map normalizeError ≠ some GoError.dsConcurrentTransaction →
      runInTransaction false opts res = ((res j).map normalizeError, j + 1)) := by
  have hrun : runInTransaction false opts res = txLoop res 0 n := by
    cases opts with
    | none => rw [← hn]; rfl
    | some o =>
      have hx := hxg o rfl
      rw [← hn]
      simp [runInTransaction, hx]
  refine ⟨?_, rfl, ?_, ?_⟩
  · cases opts with
    | none => simp [runInTransactionAttempts] at hn; omega
    | some o =>
      simp [runInTransactionAttempts] at hn
      split at hn <;> omega
  · intro h
    rw [hrun, txLoop_all_conflict res n 0 (fun d hd => by simpa using h d hd)]
    simp
  · intro j hj hc hnon
    rw [hrun, txLoop_first_non_conflict res n 0 j hj
      (fun d hd => by simpa using hc d hd) (by simpa using hnon)]
    simp

/-- Witness for runInTransaction_retry: two attempts, both conflicting,
yield the conflict sentinel after exactly two backend calls. -/
theorem runInTransaction_retry_witness :
    runInTransaction false (some ⟨false, 2⟩)
        (fun _ => some GoError.nativeConcurrentTransaction) =
      (some GoError.dsConcurrentTransaction, 2) :=
  (runInTransaction_retry (some ⟨false, 2⟩)
      (fun _ => some GoError.nativeConcurrentTransaction) 2
      (fun o h => by cases h; rfl) rfl).2.2.1 (fun i _ => rfl)

/-- C5: a scope that already has a transaction bound fails at once with
the nested-transaction configuration error, and a call with the
cross-entity-group option set fails at once with the cross-group
configuration error; in both cases zero backend transaction attempts are
made (the second component counts them). -/
theorem runInTransaction_config_error (opts : Option TransactionOptions)
    (res : Nat → Option GoError) (o : TransactionOptions) :
    runInTransaction true opts res =
      (some (.errString "nested transactions are not supported"), 0) ∧
    (opts = some o → o.XG = true →
      runInTransaction false opts res =
        (some (.errString "cross-group transactions are not supported"), 0)) := by
  refine ⟨rfl, ?_⟩
  intro h hxg
  subst h
  simp [runInTransaction, hxg]

/-- Witness for runInTransaction_config_error: a bound transaction and a
cross-group request both fail with zero backend calls. -/
theorem runInTransaction_config_error_witness :
    runInTransaction true none (fun _ => none) =
      (some (.errString "nested transactions are not supported"), 0) ∧
    runInTransaction false (some ⟨true, 0⟩) (fun _ => none) =
      (some (.errString "cross-group transactions are not supported"), 0) :=
  ⟨(runInTransaction_config_error none (fun _ => none) ⟨true, 0⟩).1,
   (runInTransaction_config_error (some ⟨true, 0⟩) (fun _ => none) ⟨true, 0⟩).2 rfl rfl⟩

/-- The MultiError loop with a callback that never aborts invokes the
callback once per slot, in order, passing each slot's individually
normalized error. -/
theorem idxCbLoopMulti_all {τ : Type} (cb : Nat → Option GoError → τ × Option GoError)
    (hcb : ∀ i e, (cb i e).2 = none) :
    ∀ (es : List (Option GoError)) (i : Nat),
      idxCbLoopMulti cb i es =
        ((es.enumFrom i).map (fun p => (cb p.1 (p.2.map normalizeError)).1), none) := by
  intro es
  induction es with
  | nil => intro i; rfl
  | cons e rest ih =>
    intro i
    have hstep : cb i (e.map normalizeError) = ((cb i (e.map normalizeError)).1, none) := by
      conv_lhs => rw [← Prod.mk.eta (p := cb i (e.map normalizeError))]
      rw [hcb]
    unfold idxCbLoopMulti
    rw [hstep]
    simp [ih (i + 1), List.enumFrom]

/-- C7 (amended): when the backend reports a single non-aggregate error,
idxCallbacker invokes the per-item callback zero times and the batch
operation itself returns that error normalized; when the backend reports
an aggregate error keyed by index (one slot per item), the callback is
invoked once per index, in input order, with that index's individually
normalized error. (As literally stated the claim fails: the
non-aggregate case does not invoke the callback once per index.) -/
theorem idxCallbacker_error_dispatch (amt : Nat)
    (cbRet : Nat → Option GoError → Option GoError) (e : GoError)
    (es : List (Option GoError)) :
    ((∀ es', e ≠ GoError.multi es') →
      idxCallbacker (some e) amt (fun i a => ((i, a), cbRet i a)) =
        ([], some (normalizeError e))) ∧
    (e = GoError.multi es → es.length = amt → (∀ i a, cbRet i a = none) →
      idxCallbacker (some e) amt (fun i a => ((i, a), cbRet i a)) =
        (es.enum.map (fun p => (p.1, p.2.map normalizeError)), none) ∧
      (es.enum.map (fun p => (p.1, p.2.map normalizeError))).length = amt) := by
  constructor
  · intro h
    cases e <;> first | exact absurd rfl (h _) | rfl
  · intro he hlen hcb
    subst he
    constructor
    · show idxCbLoopMulti (fun i a => ((i, a), cbRet i a)) 0 es = _
      rw [idxCbLoopMulti_all (fun i a => ((i, a), cbRet i a)) (fun i a => hcb i _) es 0]
      rfl
    · rw [← hlen]
      simp

/-- C7 counterexample: a single non-aggregate backend error over 3 items
invokes the callback zero times — not once per index as claimed — and is
returned from the batch operation itself. -/
theorem idxCallbacker_single_error_counterexample :
    idxCallbacker (some (GoError.errString "boom")) 3
        (fun i a => ((i, a), cbNone i a)) =
      (([] : List (Nat × Option GoError)), some (GoError.errString "boom")) :=
  rfl

/-- Witness for idxCallbacker_error_dispatch: a plain error over two
items invokes no callbacks; a two-slot aggregate invokes the callback at
indices 0 and 1 with the per-slot normalized errors. -/
theorem idxCallbacker_error_dispatch_witness :
    idxCallbacker (some (GoError.errString "np")) 2
        (fun i a => ((i, a), cbNone i a)) = ([], some (GoError.errString "np")) ∧
    idxCallbacker (some (GoError.multi [none, some GoError.nativeNoSuchEntity])) 2
        (fun i a => ((i, a), cbNone i a)) =
      ([(0, none), (1, some GoError.dsNoSuchEntity)], none) :=
  ⟨(idxCallbacker_error_dispatch 2 cbNone (GoError.errString "np") []).1
      (fun es' h => GoError.noConfusion h),
   ((idxCallbacker_error_dispatch 2 cbNone
      (GoError.multi [none, some GoError.nativeNoSuchEntity])
      [none, some GoError.nativeNoSuchEntity]).2 rfl rfl (fun i a => rfl)).1⟩

/-- The Run loop over decodable entities with a callback that never
aborts invokes the callback once per entity and returns nil at the
Done sentinel. -/
theorem runLoop_all_ok (bds : BoundDatastore) (cbRet : Nat → Option GoError)
    (hcb : ∀ i, cbRet i = none) :
    ∀ (ents : List (NativeKey × List NativeProperty)) (idx : Nat),
      (∀ e ∈ ents, ∃ pm, loadPMap bds e.2 = .ok pm) →
      ∃ tr, runLoop bds false cbRet idx (ents.map (fun e => IterItem.entity e.1 e.2)) =
        some (tr, none) ∧ tr.length = ents.length := by
  intro ents
  induction ents with
  | nil => exact fun idx _ => ⟨[], rfl, rfl⟩
  | cons e rest ih =>
    intro idx hload
    obtain ⟨pm, hpm⟩ := hload e (by simp)
    obtain ⟨tr, hrec, hlen⟩ := ih (idx + 1) (fun x hx => hload x (by simp [hx]))
    refine ⟨(nativeKeyToGAE bds e.1, some pm) :: tr, ?_, by simp [hlen]⟩
    rw [List.map_cons]
    unfold runLoop
    simp [hpm, hcb idx, hrec]

/-- The Run loop ends cleanly right after the callback invocation that
returns the stop sentinel: earlier invocations continue, the stopping
one is the last, and nil is returned. -/
theorem runLoop_stop (bds : BoundDatastore) (cbRet : Nat → Option GoError) :
    ∀ (ents : List (NativeKey × List NativeProperty)) (idx j : Nat),
      (∀ e ∈ ents, ∃ pm, loadPMap bds e.2 = .ok pm) →
      (∀ d, d < j → cbRet (idx + d) = none) →
      cbRet (idx + j) = some GoError.dsStop →
      j < ents.length →
      ∃ tr, runLoop bds false cbRet idx (ents.map (fun e => IterItem.entity e.1 e.2)) =
        some (tr, none) ∧ tr.length = j + 1 := by
  intro ents
  induction ents with
  | nil => intro idx j _ _ _ hj; exact absurd hj (by simp)
  | cons e rest ih =>
    intro idx j hload hc hstop hj
    obtain ⟨pm, hpm⟩ := hload e (by simp)
    cases j with
    | zero =>
      refine ⟨[(nativeKeyToGAE bds e.1, some pm)], ?_, rfl⟩
      rw [List.map_cons]
      unfold runLoop
      simp [hpm, show cbRet idx = some GoError.dsStop by simpa using hstop]
    | succ j' =>
      have h0 : cbRet idx = none := by simpa using hc 0 (Nat.succ_pos j')
      obtain ⟨tr, hrec, hlen⟩ := ih (idx + 1) j'
        (fun x hx => hload x (by simp [hx]))
        (fun d hd => by
          rw [show idx + 1 + d = idx + (d + 1) from by omega]
          exact hc (d + 1) (by omega))
        (by
          rw [show idx + 1 + j' = idx + (j' + 1) from by omega]
          exact hstop)
        (by simpa using Nat.lt_of_succ_lt_succ hj)
      refine ⟨(nativeKeyToGAE bds e.1, some pm) :: tr, ?_, by simp [hlen]⟩
      rw [List.map_cons]
      unfold runLoop
      simp [hpm, h0, hrec]

/-- C8: over a non-keys-only query whose backend iterator yields a list
of decodable entities and then Done, Run with a callback that never
aborts invokes the callback exactly once per entity and returns nil
(so with the backend enforcing limit 3 over 5 matching entities the
callback runs exactly 3 times); and a callback returning the stop
sentinel at invocation j halts iteration after j + 1 invocations with
Run returning nil. -/
theorem run_limit_and_stop (bds : BoundDatastore) (cbRet : Nat → Option GoError)
    (ents : List (NativeKey × List NativeProperty))
    (hload : ∀ e ∈ ents, ∃ pm, loadPMap bds e.2 = .ok pm) :
    ((∀ i, cbRet i = none) →
      ∃ tr, run bds false cbRet (ents.map (fun e => IterItem.entity e.1 e.2)) =
        some (tr, none) ∧ tr.length = ents.length) ∧
    (∀ j, j < ents.length → (∀ d, d < j → cbRet d = none) →
      cbRet j = some GoError.dsStop →
      ∃ tr, run bds false cbRet (ents.map (fun e => IterItem.entity e.1 e.2)) =
        some (tr, none) ∧ tr.length = j + 1) := by
  constructor
  · intro hcb
    exact runLoop_all_ok bds cbRet hcb ents 0 hload
  · intro j hj hc hstop
    exact runLoop_stop bds cbRet ents 0 j hload
      (fun d hd => by simpa using hc d hd) (by simpa using hstop) hj

/-- Witness for run_limit_and_stop: three empty entities; with a
never-stopping callback Run makes 3 invocations and returns nil, and
with a callback stopping at the 2nd invocation Run makes 2 invocations
and returns nil. -/
theorem run_limit_and_stop_witness :
    (∃ tr, run bds0 false (fun _ => none)
        ([(nkW, []), (nkW, []), (nkW, [])].map (fun e => IterItem.entity e.1 e.2)) =
        some (tr, none) ∧ tr.length = 3) ∧
    (∃ tr, run bds0 false (fun i => if i = 1 then some GoError.dsStop else none)
        ([(nkW, []), (nkW, []), (nkW, [])].map (fun e => IterItem.entity e.1 e.2)) =
        some (tr, none) ∧ tr.length = 2) := by
  constructor
  · exact (run_limit_and_stop bds0 (fun _ => none) [(nkW, []), (nkW, []), (nkW, [])]
      (by intro e he; simp at he; subst he; exact ⟨[], rfl⟩)).1
      (fun _ => rfl)
  · exact (run_limit_and_stop bds0 (fun i => if i = 1 then some GoError.dsStop else none)
      [(nkW, []), (nkW, []), (nkW, [])]
      (by intro e he; simp at he; subst he; exact ⟨[], rfl⟩)).2
      1 (by decide) (fun d hd => by
        have hd0 : d = 0 := by omega
        subst hd0
        rfl) rfl

/-- C9: the code faults on every keys-only query that yields at least
one result — no property loader is allocated, and Run dereferences the
nil loader to fetch the callback's property-map argument (the none
outcome records the fault); the same stream with the loader allocated
(non-keys-only) is handled without fault. -/
theorem run_keysOnly_faults :
    run bds0 true (fun _ => none) [IterItem.entity nkW []] = none ∧
    run bds0 false (fun _ => none) [IterItem.entity nkW []] =
      some ([(nativeKeyToGAE bds0 nkW, some ([] : PMap))], none) :=
  ⟨rfl, rfl⟩

/-- gaePropertyToNative always names the native property after the
abstract property name it was given. -/
theorem gaePropertyToNative_name (bds : BoundDatastore) (name : String)
    (props : List Property) (np : NativeProperty)
    (h : gaePropertyToNative bds name props = .ok np) : np.Name = name := by
  unfold gaePropertyToNative at h
  split at h
  · exact absurd h (by simp)
  · split at h <;> (simp at h; rw [← h])

/-- The Save loop skips exactly the dollar-named entries: the produced
native properties are named by the non-meta entries in order, none is
dollar-named, and every non-meta entry's encoding is among them. -/
theorem saveLoop_spec (bds : BoundDatastore) :
    ∀ (pm : PMap) (nps : List NativeProperty), saveLoop bds pm = .ok nps →
      nps.map (fun np => np.Name) =
        (pm.filter (fun e => !strHasPre e.1 dollarSign)).map (fun e => e.1) ∧
      (∀ np ∈ nps, strHasPre np.Name dollarSign = false) ∧
      (∀ e ∈ pm, strHasPre e.1 dollarSign = false →
        ∃ np, gaePropertyToNative bds e.1 e.2 = .ok np ∧ np ∈ nps) := by
  intro pm
  induction pm with
  | nil =>
    intro nps h
    simp [saveLoop] at h
    subst h
    refine ⟨rfl, by simp, by simp⟩
  | cons e rest ih =>
    intro nps h
    unfold saveLoop at h
    by_cases hd : strHasPre e.1 dollarSign
    · rw [if_pos hd] at h
      obtain ⟨h1, h2, h3⟩ := ih nps h
      refine ⟨by simp [hd, h1], h2, ?_⟩
      intro x hx hxd
      rcases List.mem_cons.mp hx with hx1 | hx1
      · rw [hx1] at hxd; rw [hxd] at hd; exact absurd hd (by simp)
      · exact h3 x hx1 hxd
    · rw [if_neg hd] at h
      cases h1 : gaePropertyToNative bds e.1 e.2 with
      | error msg => rw [h1] at h; exact absurd h (by simp)
      | ok np =>
        rw [h1] at h
        cases h2 : saveLoop bds rest with
        | error msg => rw [h2] at h; exact absurd h (by simp)
        | ok nps' =>
          rw [h2] at h
          simp at h
          subst h
          obtain ⟨g1, g2, g3⟩ := ih nps' h2
          have hname : np.Name = e.1 := gaePropertyToNative_name bds e.1 e.2 np h1
          refine ⟨?_, ?_, ?_⟩
          · simp [hd, g1, hname]
          · intro x hx
            rcases List.mem_cons.mp hx with hx1 | hx1
            · rw [hx1, hname]; simpa using hd
            · exact g2 x hx1
          · intro x hx hxd
            rcases List.mem_cons.mp hx with hx1 | hx1
            · subst hx1; exact ⟨np, h1, by simp⟩
            · obtain ⟨np', hnp', hmem⟩ := g3 x hx1 hxd
              exact ⟨np', hnp', by simp [hmem]⟩

/-- C10: an empty (or nil) PropertyMap saves to no native properties;
and whenever Save succeeds, the encoded native properties are named
exactly by the entries whose name does not begin with the dollar
character (in iteration order), no dollar-named entry survives, and
every non-meta entry's encoding appears among the results. -/
theorem save_strips_meta (bds : BoundDatastore) (pmap : PMap) (nps : List NativeProperty) :
    save bds [] = .ok [] ∧
    (save bds pmap = .ok nps →
      nps.map (fun np => np.Name) =
        (pmap.filter (fun e => !strHasPre e.1 dollarSign)).map (fun e => e.1) ∧
      (∀ np ∈ nps, strHasPre np.Name dollarSign = false) ∧
      (∀ e ∈ pmap, strHasPre e.1 dollarSign = false →
        ∃ np, gaePropertyToNative bds e.1 e.2 = .ok np ∧ np ∈ nps)) := by
  refine ⟨rfl, ?_⟩
  intro h
  unfold save at h
  split at h
  · rename_i hp
    have hpm : pmap = [] := List.length_eq_zero.mp hp
    subst hpm
    simp at h
    subst h
    refine ⟨rfl, by simp, by simp⟩
  · exact saveLoop_spec bds pmap nps h

/-- Witness for save_strips_meta: a map with one meta entry and one
plain entry saves to just the plain entry's encoding. -/
theorem save_strips_meta_witness :
    save bds0 [] = .ok [] ∧
    ([(⟨"a", NativeValue.NVInt 2, true⟩ : NativeProperty)].map (fun np => np.Name) =
      (([("$m", [(⟨.PVInt 1, .ShouldIndex⟩ : Property)]), ("a", [⟨.PVInt 2, .NoIndex⟩])] :
          PMap).filter (fun e => !strHasPre e.1 dollarSign)).map (fun e => e.1) ∧
     (∀ np ∈ [(⟨"a", NativeValue.NVInt 2, true⟩ : NativeProperty)],
        strHasPre np.Name dollarSign = false) ∧
     (∀ e ∈ ([("$m", [(⟨.PVInt 1, .ShouldIndex⟩ : Property)]), ("a", [⟨.PVInt 2, .NoIndex⟩])] :
          PMap), strHasPre e.1 dollarSign = false →
        ∃ np, gaePropertyToNative bds0 e.1 e.2 = .ok np ∧
          np ∈ [(⟨"a", NativeValue.NVInt 2, true⟩ : NativeProperty)])) :=
  ⟨(save_strips_meta bds0 [] []).1,
   (save_strips_meta bds0
      [("$m", [⟨.PVInt 1, .ShouldIndex⟩]), ("a", [⟨.PVInt 2, .NoIndex⟩])]
      [⟨"a", .NVInt 2, true⟩]).2 rfl⟩

/-- Witness for multi_valued_always_indexed at a two-element no-index
integer list. -/
theorem multi_valued_always_indexed_witness :
    ({ Name := "m", Value := NativeValue.NVList [.NVInt 1, .NVInt 2], NoIndex := false } :
        NativeProperty).NoIndex = false ∧
    (⟨.PVInt 1, .ShouldIndex⟩ : Property).indexSetting = IndexSetting.ShouldIndex :=
  ⟨(multi_valued_always_indexed bds0 "m" [⟨.PVInt 1, .NoIndex⟩, ⟨.PVInt 2, .NoIndex⟩]
      ⟨"m", .NVList [.NVInt 1, .NVInt 2], false⟩ (by decide) rfl).1,
   (multi_valued_always_indexed bds0 "m" [⟨.PVInt 1, .NoIndex⟩, ⟨.PVInt 2, .NoIndex⟩]
      ⟨"m", .NVList [.NVInt 1, .NVInt 2], false⟩ (by decide) rfl).2
     "m" [⟨.PVInt 1, .ShouldIndex⟩, ⟨.PVInt 2, .ShouldIndex⟩] rfl
     ⟨.PVInt 1, .ShouldIndex⟩ (by simp)⟩

/-- Scanning for incomplete keys from a shifted start index shifts every
recorded original index by one. -/
theorem incompletePairsFrom_succ :
    ∀ (ks : List NativeKey) (i : Nat),
      incompletePairsFrom (i + 1) ks =
        (incompletePairsFrom i ks).map (fun p => (p.1 + 1, p.2)) := by
  intro ks
  induction ks with
  | nil => intro i; rfl
  | cons k ks ih =>
    intro i
    by_cases hk : k.incomplete
    · simp [incompletePairsFrom, hk, ih (i + 1)]
    · simp [incompletePairsFrom, hk, ih (i + 1)]

/-- The keys recorded by the incomplete-key scan are exactly the
incomplete keys, in input order. -/
theorem incompletePairsFrom_snd :
    ∀ (ks : List NativeKey) (i : Nat),
      (incompletePairsFrom i ks).map (fun p => p.2) = ks.filter NativeKey.incomplete := by
  intro ks
  induction ks with
  | nil => intro i; rfl
  | cons k ks ih =>
    intro i
    by_cases hk : k.incomplete
    · simp [incompletePairsFrom, hk, List.filter, ih (i + 1)]
    · simp [incompletePairsFrom, hk, List.filter, ih (i + 1)]

/-- Map lookup at a shifted position skips the head entry. -/
theorem posAt_cons_succ (p0 : Nat) (ps : List Nat) (j : Nat) :
    posAt (p0 :: ps) (j + 1) = posAt ps j := rfl

/-- Lookup into uniformly shifted positions adds the shift, inside the
populated range. -/
theorem posAt_map_succ :
    ∀ (ps : List Nat) (j : Nat), j < ps.length →
      posAt (ps.map (fun x => x + 1)) j = posAt ps j + 1 := by
  intro ps
  induction ps with
  | nil => intro j hj; exact absurd hj (by simp)
  | cons p ps ih =>
    intro j hj
    cases j with
    | zero => rfl
    | succ j' => exact ih j' (by simpa using hj)

/-- The substitution loop never reads the head map entry once the
position counter has moved past it. -/
theorem allocLoop_skip_head (p0 : Nat) (ps : List Nat) :
    ∀ (out : List NativeKey) (j : Nat) (acc : List NativeKey),
      allocLoop (p0 :: ps) (j + 1) acc out = allocLoop ps j acc out := by
  intro out
  induction out with
  | nil => intro j acc; rfl
  | cons o rest ih =>
    intro j acc
    unfold allocLoop
    rw [posAt_cons_succ]
    exact ih (j + 1) (acc.set (posAt ps j) o)

/-- With every position shifted by one and the accumulator extended by a
head element, the substitution loop leaves the head alone and acts on
the tail. -/
theorem allocLoop_shift (ps : List Nat) :
    ∀ (out : List NativeKey) (j : Nat) (acc : List NativeKey) (k : NativeKey),
      j + out.length ≤ ps.length →
      allocLoop (ps.map (fun x => x + 1)) j (k :: acc) out = k :: allocLoop ps j acc out := by
  intro out
  induction out with
  | nil => intro j acc k _; rfl
  | cons o rest ih =>
    intro j acc k hb
    unfold allocLoop
    rw [posAt_map_succ ps j (by simp at hb; omega)]
    show allocLoop (ps.map (fun x => x + 1)) (j + 1) (k :: acc.set (posAt ps j) o) rest = _
    exact ih (j + 1) (acc.set (posAt ps j) o) k (by simp at hb ⊢; omega)

/-- The Go index-map substitution computes the spec-level substitution:
each incomplete key is replaced, in order, by the next allocated key,
provided the allocation answered one key per incomplete input. -/
theorem allocLoop_eq_subst :
    ∀ (ks out : List NativeKey),
      out.length = (ks.filter NativeKey.incomplete).length →
      allocLoop ((incompletePairsFrom 0 ks).map (fun p => p.1)) 0 ks out =
        substIncomplete ks out := by
  intro ks
  induction ks with
  | nil =>
    intro out hlen
    simp at hlen
    subst hlen
    rfl
  | cons k ks ih =>
    intro out hlen
    have hplen : ((incompletePairsFrom 0 ks).map (fun p => p.1)).length =
        (ks.filter NativeKey.incomplete).length := by
      rw [List.length_map, ← incompletePairsFrom_snd ks 0, List.length_map]
    by_cases hk : k.incomplete
    · have hsc : incompletePairsFrom 0 (k :: ks) =
          (0, k) :: (incompletePairsFrom 0 ks).map (fun p => (p.1 + 1, p.2)) := by
        show (if k.incomplete then (0, k) :: incompletePairsFrom (0 + 1) ks
              else incompletePairsFrom (0 + 1) ks) = _
        rw [if_pos hk]
        rw [show (0 : Nat) + 1 = 0 + 1 from rfl, incompletePairsFrom_succ ks 0]
      cases out with
      | nil =>
        exfalso
        simp [List.filter, hk] at hlen
      | cons o out' =>
        have hlen' : out'.length = (ks.filter NativeKey.incomplete).length := by
          simp [List.filter, hk] at hlen
          exact hlen
        rw [hsc]
        show allocLoop
            ((0, k) :: (incompletePairsFrom 0 ks).map (fun p => (p.1 + 1, p.2))
              |>.map (fun p => p.1)) 0 (k :: ks) (o :: out') = _
        rw [List.map_cons]
        unfold allocLoop
        rw [show posAt
            (0 :: ((incompletePairsFrom 0 ks).map (fun p => (p.1 + 1, p.2))).map (fun p => p.1)) 0
            = 0 from rfl]
        rw [show (k :: ks).set 0 o = o :: ks from rfl]
        rw [allocLoop_skip_head]
        have hmm : ((incompletePairsFrom 0 ks).map (fun p => (p.1 + 1, p.2))).map
            (fun p => p.1) = ((incompletePairsFrom 0 ks).map (fun p => p.1)).map
            (fun x => x + 1) := by
          simp [List.map_map]
        rw [hmm, allocLoop_shift _ out' 0 ks o (by rw [hplen]; omega)]
        rw [ih out' hlen']
        simp [substIncomplete, hk]
    · have hsc : incompletePairsFrom 0 (k :: ks) =
          (incompletePairsFrom 0 ks).map (fun p => (p.1 + 1, p.2)) := by
        show (if k.incomplete then (0, k) :: incompletePairsFrom (0 + 1) ks
              else incompletePairsFrom (0 + 1) ks) = _
        rw [if_neg hk]
        rw [show (0 : Nat) + 1 = 0 + 1 from rfl, incompletePairsFrom_succ ks 0]
      have hlen' : out.length = (ks.filter NativeKey.incomplete).length := by
        simp [List.filter, hk] at hlen
        exact hlen
      rw [hsc]
      have hmm : ((incompletePairsFrom 0 ks).map (fun p => (p.1 + 1, p.2))).map
          (fun p => p.1) = ((incompletePairsFrom 0 ks).map (fun p => p.1)).map
          (fun x => x + 1) := by
        simp [List.map_map]
      rw [hmm, allocLoop_shift _ out 0 ks k (by rw [hplen]; omega)]
      rw [ih out hlen']
      simp [substIncomplete, hk]

/-- Substitution preserves the number of keys. -/
theorem substIncomplete_length :
    ∀ (ks out : List NativeKey), (substIncomplete ks out).length = ks.length := by
  intro ks
  induction ks with
  | nil => intro out; rfl
  | cons k ks ih =>
    intro out
    by_cases hk : k.incomplete
    · cases out with
      | nil => simp [substIncomplete, hk, ih]
      | cons o out' => simp [substIncomplete, hk, ih]
    · simp [substIncomplete, hk, ih]

/-- Substitution leaves every complete key at its original index. -/
theorem substIncomplete_get_complete :
    ∀ (ks out : List NativeKey) (i : Nat) (nk : NativeKey),
      ks.get? i = some nk → nk.incomplete = false →
      (substIncomplete ks out).get? i = some nk := by
  intro ks
  induction ks with
  | nil => intro out i nk h _; simp at h
  | cons k ks ih =>
    intro out i nk h hc
    cases i with
    | zero =>
      simp at h
      subst h
      simp [substIncomplete, hc]
    | succ i' =>
      rw [List.get?_cons_succ] at h
      by_cases hk : k.incomplete
      · cases out with
        | nil => simpa [substIncomplete, hk] using ih [] i' nk h hc
        | cons o out' => simpa [substIncomplete, hk] using ih out' i' nk h hc
      · simpa [substIncomplete, hk] using ih out i' nk h hc

/-- Every key of the substituted list is either an untouched complete
input key or one of the allocated keys, when the allocation answered one
key per incomplete input. -/
theorem substIncomplete_members :
    ∀ (ks out : List NativeKey),
      out.length = (ks.filter NativeKey.incomplete).length →
      ∀ x ∈ substIncomplete ks out,
        (x ∈ ks ∧ x.incomplete = false) ∨ x ∈ out := by
  intro ks
  induction ks with
  | nil => intro out _ x hx; simp [substIncomplete] at hx
  | cons k ks ih =>
    intro out hlen x hx
    by_cases hk : k.incomplete
    · cases out with
      | nil => exfalso; simp [List.filter, hk] at hlen
      | cons o out' =>
        have hlen' : out'.length = (ks.filter NativeKey.incomplete).length := by
          simp [List.filter, hk] at hlen
          exact hlen
        simp [substIncomplete, hk] at hx
        rcases hx with hx | hx
        · subst hx; exact Or.inr (by simp)
        · rcases ih out' hlen' x hx with ⟨h1, h2⟩ | h1
          · exact Or.inl ⟨by simp [h1], h2⟩
          · exact Or.inr (by simp [h1])
    · have hlen' : out.length = (ks.filter NativeKey.incomplete).length := by
        simp [List.filter, hk] at hlen
        exact hlen
      simp [substIncomplete, hk] at hx
      rcases hx with hx | hx
      · subst hx
        exact Or.inl ⟨by simp, by simpa using hk⟩
      · rcases ih out hlen' x hx with ⟨h1, h2⟩ | h1
        · exact Or.inl ⟨by simp [h1], h2⟩
        · exact Or.inr h1

/-- Encoding a key list preserves its length. -/
theorem gaeKeysToNative_length (bds : BoundDatastore) :
    ∀ (keys : List Key) (nks : List NativeKey),
      gaeKeysToNative bds keys = some nks → nks.length = keys.length := by
  intro keys
  induction keys with
  | nil => intro nks h; simp [gaeKeysToNative] at h; simp [← h]
  | cons k ks ih =>
    intro nks h
    unfold gaeKeysToNative at h
    cases h1 : gaeKeyToNative bds k with
    | none => rw [h1] at h; exact absurd h (by simp)
    | some nk =>
      rw [h1] at h
      cases h2 : gaeKeysToNative bds ks with
      | none => rw [h2] at h; exact absurd h (by simp)
      | some nks' =>
        rw [h2] at h
        simp at h
        simp [← h, ih nks' h2]

/-- Decoding preserves completeness: the decoded abstract key's leaf
token is the native key's own (kind, name, id) triple, so the decoded
key is incomplete exactly when the native key is. -/
theorem nativeKeyToGAE_incomplete (bds : BoundDatastore) (nk : NativeKey) :
    (nativeKeyToGAE bds nk).incompleteKey = nk.incomplete := by
  cases nk with
  | mk kind name id ns parent =>
    unfold nativeKeyToGAE Key.incompleteKey
    rw [show collectToks (NativeKey.mk kind name id ns parent) =
        (⟨kind, name, id⟩ : KeyTok) :: optCollectToks parent from by cases parent <;> rfl]
    rw [List.reverse_cons, List.getLast?_concat]
    rfl

/-- One step of the success loop with a callback that reports nil. -/
theorem idxCbLoopOk_step {τ : Type} (cb : Nat → Option GoError → τ × Option GoError)
    (i m : Nat) (h2 : (cb i none).2 = none) :
    idxCbLoopOk cb i (m + 1) =
      ((cb i none).1 :: (idxCbLoopOk cb (i + 1) m).1, (idxCbLoopOk cb (i + 1) m).2) := by
  have hstep : cb i none = ((cb i none).1, none) := by
    conv_lhs => rw [← Prod.mk.eta (p := cb i none)]
    rw [h2]
  conv_lhs => rw [idxCbLoopOk]
  rw [hstep]

/-- The success loop with a callback that never aborts returns a nil
result and one record per index, in order. -/
theorem idxCbLoopOk_all {τ : Type} (cb : Nat → Option GoError → τ × Option GoError)
    (hcb : ∀ j a, (cb j a).2 = none) :
    ∀ (n i : Nat),
      (idxCbLoopOk cb i n).2 = none ∧
      (idxCbLoopOk cb i n).1.length = n ∧
      (∀ d, d < n → (idxCbLoopOk cb i n).1.get? d = some ((cb (i + d) none).1)) := by
  intro n
  induction n with
  | zero => intro i; exact ⟨rfl, rfl, fun d hd => absurd hd (by omega)⟩
  | succ m ih =>
    intro i
    obtain ⟨ih1, ih2, ih3⟩ := ih (i + 1)
    rw [idxCbLoopOk_step cb i m (hcb i none)]
    refine ⟨ih1, by simp [ih2], ?_⟩
    intro d hd
    cases d with
    | zero => simp
    | succ d' =>
      have := ih3 d' (by omega)
      simp only [List.get?]
      rw [this]
      rw [show i + 1 + d' = i + (d' + 1) from by omega]

/-- C6: for a transactional PutMulti over a key list mixing complete and
incomplete keys, the identifier-allocation call is made for exactly the
incomplete subset in its relative input order; each allocated key is
substituted back at the incomplete key's original index before the
backend transactional write (complete keys stay at their indices); and
on backend success the per-item callback is invoked once per index in
original order, receiving a complete key and no error at every index. -/
theorem putMulti_tx_allocation (bds : BoundDatastore)
    (alloc : List NativeKey → Except GoError (List NativeKey))
    (cbRet : Nat → Option Key → Option GoError → Option GoError)
    (keys : List Key) (nks idKeys : List NativeKey)
    (henc : gaeKeysToNative bds keys = some nks)
    (hmixi : ∃ nk ∈ nks, nk.incomplete = true)
    (hmixc : ∃ nk ∈ nks, nk.incomplete = false)
    (halloc : alloc (nks.filter NativeKey.incomplete) = .ok idKeys)
    (hlen : idKeys.length = (nks.filter NativeKey.incomplete).length)
    (hcomp : ∀ nk ∈ idKeys, nk.incomplete = false)
    (hcb : ∀ i k e, cbRet i k e = none) :
    ∃ T, putMultiTx bds alloc none cbRet keys = some T ∧
      T.allocArg = some (nks.filter NativeKey.incomplete) ∧
      T.finalKeys = substIncomplete nks idKeys ∧
      (∀ i nk, nks.get? i = some nk → nk.incomplete = false →
        T.finalKeys.get? i = some nk) ∧
      T.callbacks.length = keys.length ∧
      (∀ i nk, T.finalKeys.get? i = some nk →
        T.callbacks.get? i = some (i, some (nativeKeyToGAE bds nk), none)) ∧
      (∀ c ∈ T.callbacks, ∃ gk, c.2.1 = some gk ∧ c.2.2 = none ∧
        gk.incompleteKey = false) ∧
      T.result = none := by
  have hsnd := incompletePairsFrom_snd nks 0
  have hne : nks.filter NativeKey.incomplete ≠ [] := by
    obtain ⟨nk, hmem, hinc⟩ := hmixi
    intro hempty
    have hmf : nk ∈ nks.filter NativeKey.incomplete := List.mem_filter.mpr ⟨hmem, hinc⟩
    rw [hempty] at hmf
    simp at hmf
  have hT : putMultiTx bds alloc none cbRet keys =
      some ⟨some (nks.filter NativeKey.incomplete),
        substIncomplete nks idKeys,
        (idxCallbacker none (substIncomplete nks idKeys).length
          (putCb bds cbRet (substIncomplete nks idKeys))).1,
        (idxCallbacker none (substIncomplete nks idKeys).length
          (putCb bds cbRet (substIncomplete nks idKeys))).2⟩ := by
    rw [← allocLoop_eq_subst nks idKeys hlen]
    unfold putMultiTx
    rw [henc]
    simp only [putMultiTxNative]
    rw [hsnd]
    rw [if_neg (by simp [hne])]
    rw [halloc]
  have hputcb : ∀ j a, (putCb bds cbRet (substIncomplete nks idKeys) j a).2 = none := by
    intro j a
    cases a with
    | none => exact hcb j _ _
    | some e => exact hcb j _ _
  obtain ⟨hres, hlentr, hget⟩ :=
    idxCbLoopOk_all (putCb bds cbRet (substIncomplete nks idKeys)) hputcb
      (substIncomplete nks idKeys).length 0
  have hklen : nks.length = keys.length := gaeKeysToNative_length bds keys nks henc
  have hget' : ∀ d, d < (substIncomplete nks idKeys).length →
      (idxCbLoopOk (putCb bds cbRet (substIncomplete nks idKeys)) 0
        (substIncomplete nks idKeys).length).1.get? d =
      some ((putCb bds cbRet (substIncomplete nks idKeys) d none).1) := by
    intro d hd
    have hx := hget d hd
    rwa [Nat.zero_add] at hx
  refine ⟨_, hT, rfl, rfl, ?_, ?_, ?_, ?_, ?_⟩
  · intro i nk h1 h2
    exact substIncomplete_get_complete nks idKeys i nk h1 h2
  · show (idxCbLoopOk (putCb bds cbRet (substIncomplete nks idKeys)) 0
      (substIncomplete nks idKeys).length).1.length = keys.length
    rw [hlentr, substIncomplete_length nks idKeys, hklen]
  · intro i nk h1
    have h1' : (substIncomplete nks idKeys).get? i = some nk := h1
    have hlt : i < (substIncomplete nks idKeys).length := by
      by_contra hge
      rw [List.get?_eq_none.mpr (by omega)] at h1'
      exact Option.noConfusion h1'
    show (idxCbLoopOk (putCb bds cbRet (substIncomplete nks idKeys)) 0
      (substIncomplete nks idKeys).length).1.get? i = _
    rw [hget' i hlt]
    show some (i, some (nativeKeyToGAE bds
      (((substIncomplete nks idKeys).get? i).getD nkOutOfRange)), none) = _
    rw [h1']
    rfl
  · intro c hc
    have hc' : c ∈ (idxCbLoopOk (putCb bds cbRet (substIncomplete nks idKeys)) 0
        (substIncomplete nks idKeys).length).1 := hc
    obtain ⟨d, hd⟩ := List.mem_iff_get?.mp hc'
    obtain ⟨hdl0, _⟩ := List.get?_eq_some.mp hd
    have hdl : d < (substIncomplete nks idKeys).length := by
      rw [hlentr] at hdl0
      exact hdl0
    rw [hget' d hdl] at hd
    have hcval : c = (putCb bds cbRet (substIncomplete nks idKeys) d none).1 :=
      (Option.some.inj hd).symm
    have hsub : (substIncomplete nks idKeys).get? d =
        some ((substIncomplete nks idKeys).get ⟨d, hdl⟩) := List.get?_eq_get hdl
    have hmem : (substIncomplete nks idKeys).get ⟨d, hdl⟩ ∈ substIncomplete nks idKeys :=
      List.get_mem _ d hdl
    have hcompd : ((substIncomplete nks idKeys).get ⟨d, hdl⟩).incomplete = false := by
      rcases substIncomplete_members nks idKeys hlen _ hmem with ⟨_, h2⟩ | h2
      · exact h2
      · exact hcomp _ h2
    refine ⟨nativeKeyToGAE bds ((substIncomplete nks idKeys).get ⟨d, hdl⟩), ?_, ?_, ?_⟩
    · rw [hcval]
      show some (nativeKeyToGAE bds
        (((substIncomplete nks idKeys).get? d).getD nkOutOfRange)) = _
      rw [hsub]
      rfl
    · rw [hcval]
      rfl
    · rw [nativeKeyToGAE_incomplete]
      exact hcompd
  · exact hres

/-- Witness for putMulti_tx_allocation: one complete two-token key and
one incomplete key; the allocation call receives exactly the incomplete
native key and the put succeeds with a nil result. -/
theorem putMulti_tx_allocation_witness :
    ∃ T, putMultiTx bds0 allocW none (fun _ _ _ => none) [keyW, keyIncW] = some T ∧
      T.allocArg = some [NativeKey.mk "Kind" "" 0 "ns" none] ∧
      T.result = none := by
  obtain ⟨T, h1, h2, _, _, _, _, _, h8⟩ :=
    putMulti_tx_allocation bds0 allocW (fun _ _ _ => none) [keyW, keyIncW]
      [NativeKey.mk "Child" "" 7 "ns" (some (.mk "Parent" "p" 0 "ns" none)),
       NativeKey.mk "Kind" "" 0 "ns" none]
      [NativeKey.mk "Kind" "" 9 "ns" none]
      rfl
      ⟨NativeKey.mk "Kind" "" 0 "ns" none, by simp, rfl⟩
      ⟨NativeKey.mk "Child" "" 7 "ns" (some (.mk "Parent" "p" 0 "ns" none)), by simp, rfl⟩
      rfl rfl
      (by intro nk h; simp at h; subst h; rfl)
      (fun _ _ _ => rfl)
  refine ⟨T, h1, ?_, h8⟩
  rw [h2]
  rfl
